import Mathlib

/-!
Shallow embedding of `src/stream-buffer.c` (wrp/stream-buffer).

The program reads bytes from stdin into a growable FIFO queue and emits one
byte per timer tick, adapting the tick interval to the observed input rate.
State is made explicit; machine integers are modelled by ℤ/ℕ; the C `float`
multiplication `interval * resize_factor` in `reset_timer` is modelled
exactly as IEEE-754 binary32 round-to-nearest-even arithmetic over dyadic
rationals (an integer numerator with a power-of-two denominator); fatal
`exit(1)` paths are modelled with `Option` results.

`ring-buffer.h` is included by the source but is not part of the source
tree; the queue operations are modelled from the spec (see `rb_xpush`,
`rb_pop`).
-/

namespace StreamBuffer

/-! ### IEEE-754 binary32 model

`reset_timer` computes `long long new_interval = interval * resize_factor;`
where `resize_factor` is a C `float`.  Under the usual arithmetic
conversions the product is computed in single precision: the `long long`
operand is converted to `float` (round to nearest, ties to even), the
product is rounded to the nearest `float`, and the assignment truncates
toward zero.  A dyadic rational `num / 2^exp` represents each value. -/

/-- A dyadic rational: the value `num / 2^exp`. -/
structure Dy where
  num : ℤ
  exp : ℕ
deriving DecidableEq

/-- The rational value of a dyadic number (spec-level only). -/
def dyVal (d : Dy) : ℚ := (d.num : ℚ) / 2 ^ d.exp

/-- Exact product of two dyadic numbers. -/
def dyMul (a b : Dy) : Dy := ⟨a.num * b.num, a.exp + b.exp⟩

/-- Round `a / 2^t` to the nearest integer, ties to even
(the IEEE-754 default rounding). -/
def rndePow (a : ℤ) (t : ℕ) : ℤ :=
  if 2 * (a % 2 ^ t) < 2 ^ t then a / 2 ^ t
  else if 2 ^ t < 2 * (a % 2 ^ t) then a / 2 ^ t + 1
  else if (a / 2 ^ t) % 2 = 0 then a / 2 ^ t else a / 2 ^ t + 1

/-- Fuelled binary logarithm: `ilog2Aux fuel n = ⌊log₂ n⌋` for `1 ≤ n < 2^fuel`. -/
def ilog2Aux : ℕ → ℕ → ℕ
  | 0, _ => 0
  | fuel + 1, n => if n < 2 then 0 else ilog2Aux fuel (n / 2) + 1

/-- Binary logarithm, exact for every argument in `[1, 2^32)`; the modelled
float computations stay far below `2^21`. -/
def ilog2 (n : ℕ) : ℕ := ilog2Aux 32 n

/-- Round a dyadic value to the nearest IEEE-754 binary32 value (24-bit
significand, round to nearest, ties to even).  Exact model for values in
`[1, 2^32)`, which covers every value arising in the embedded
`reset_timer`; values below 1 are returned unchanged (unused domain). -/
def floatRoundDy (d : Dy) : Dy :=
  if d.num < 2 ^ d.exp then d
  else
    let e := ilog2 ((d.num / 2 ^ d.exp).toNat)
    ⟨rndePow (d.num * 2 ^ 23) (d.exp + e) * 2 ^ e, 23⟩

/-- C conversion of a dyadic value to an integer: truncation toward zero. -/
def dyTrunc (d : Dy) : ℤ :=
  if d.num < 0 then -((-d.num) / 2 ^ d.exp) else d.num / 2 ^ d.exp

/-- The binary32 value of the C literal `1.05` used as `resize_factor`
(the nearest float to 21/20 is `8808038 / 2^23`). -/
def f105 : Dy := ⟨8808038, 23⟩

/-- The binary32 value of the C literal `.95` used as `resize_factor`
(the nearest float to 19/20 is `15938355 / 2^24`). -/
def f095 : Dy := ⟨15938355, 24⟩

/-! ### Timer -/

/-- The `struct itimerval` programmed by `set_timer`: first expiry after
`value_usec` microseconds, then recurring every `interval_usec`
microseconds (0 = one-shot). -/
structure TimerCfg where
  value_usec : ℤ
  interval_usec : ℤ
deriving DecidableEq

/-- `set_timer(value_usec, interval_usec)` (src/stream-buffer.c:91-99):
the armed timer configuration. -/
def set_timer (value_usec interval_usec : ℤ) : TimerCfg :=
  ⟨value_usec, interval_usec⟩

/-- The value `(long long)(interval * resize_factor)` computed inside
`reset_timer`: the `long long` operand converted to `float`, multiplied in
single precision, truncated toward zero. -/
def rescaled (interval : ℤ) (resize_factor : Dy) : ℤ :=
  dyTrunc (floatRoundDy (dyMul (floatRoundDy ⟨interval, 0⟩) resize_factor))

/-- `reset_timer` (src/stream-buffer.c:101-121).  `isReg` is the result of
`is_regular(STDIN_FILENO, "stdin")`, constant for a whole run.  Result:
`none` models `exit(1)` ("maximum output rate is 100KB/sec" when the new
interval is below 10, "minimum output rate is 1B/sec" when it exceeds
`1e6`); `some (i, cfg)` models returning interval `i`, where `cfg` is the
configuration passed to `set_timer` (`none` when no re-arm happens). -/
def reset_timer (isReg : Bool) (interval : ℤ) (resize_factor : Dy) :
    Option (ℤ × Option TimerCfg) :=
  if isReg then
    some (interval, none)
  else
    let new_interval := rescaled interval resize_factor
    if new_interval < 10 then none
    else if new_interval > 1000000 then none
    else some (new_interval, some (set_timer new_interval new_interval))

/-! ### Growable byte queue

Modelled from the spec: `ring-buffer.h` (`rb_create`, `rb_xpush`, `rb_pop`)
is not part of the source tree.  Per spec §3/§4.1 the queue is an unbounded
FIFO: `push` appends at the tail and never drops data, `pop` removes the
head or returns a distinguishable EMPTY marker (the C code compares the
result with `EOF`).  A Lean list, head = next byte to pop, models it. -/

/-- Modelled from the spec: `rb_xpush` appends one byte at the tail of the
queue and never fails or drops data (growth is invisible at this level). -/
def rb_xpush (rb : List ℕ) (c : ℕ) : List ℕ := rb ++ [c]

/-- Modelled from the spec: `rb_pop` removes and returns the head byte, or
returns the EMPTY marker (`EOF` in the C code, here `none`). -/
def rb_pop (rb : List ℕ) : Option ℕ × List ℕ :=
  match rb with
  | [] => (none, [])
  | c :: rest => (some c, rest)

/-! ### The steady-state loop `stream_data`

One iteration of the `while( (c = getchar()) != EOF || errno == EINTR )`
loop is driven by two observations: the outcome of the `getchar()` call
(`some b` for a byte, `none` when the call returned `EOF`, either because
the input ended or because the read was interrupted by `SIGALRM`) and the
value of the `received_signal` flag at the test on line 48.  A run of the
loop is a list of such observations; timing is erased. -/

/-- `DELAY_SIZE`: drift threshold for adapting the interval. -/
def delay_size : ℤ := 1024

/-- One iteration's observations in the `stream_data` loop: `c` is what
`getchar()` returned (`none` = `EOF`), `sig` is the `received_signal`
flag tested at line 48. -/
structure Ev where
  c : Option ℕ
  sig : Bool
deriving DecidableEq

/-- The bytes delivered by the input during a list of loop iterations. -/
def inputBytes (evs : List Ev) : List ℕ := evs.filterMap (fun e => e.c)

/-- Mutable state of `stream_data`: the current interval, the
`bytes_buffered` drift counter, the ring buffer, and the bytes already
written to stdout (in order). -/
structure LoopSt where
  interval : ℤ
  drift : ℤ
  rb : List ℕ
  out : List ℕ
deriving DecidableEq

/-- The `if( received_signal )` block (src/stream-buffer.c:48-59):
decrement `bytes_buffered`, pop one byte; emit it if present, otherwise
rescale by 1.05 (underrun).  `none` models `exit(1)` inside `reset_timer`. -/
def service_signal (isReg : Bool) (st : LoopSt) (sig : Bool) : Option LoopSt :=
  if sig then
    match rb_pop st.rb with
    | (none, _) =>
        match reset_timer isReg st.interval f105 with
        | none => none
        | some (ni, _) => some ⟨ni, st.drift - 1, st.rb, st.out⟩
    | (some d, rest) => some ⟨st.interval, st.drift - 1, rest, st.out ++ [d]⟩
  else some st

/-- The `if( c != EOF )` block (src/stream-buffer.c:60-63): push the byte
just read and increment `bytes_buffered`. -/
def push_input (st : LoopSt) (c : Option ℕ) : LoopSt :=
  match c with
  | some b => ⟨st.interval, st.drift + 1, rb_xpush st.rb b, st.out⟩
  | none => st

/-- The two drift-threshold checks (src/stream-buffer.c:64-71).  In the C
code they are two consecutive `if`s; after the first fires the counter is
0, so the second cannot also fire, and `if`/`else if` is equivalent. -/
def check_thresholds (isReg : Bool) (st : LoopSt) : Option LoopSt :=
  if st.drift > delay_size then
    match reset_timer isReg st.interval f095 with
    | none => none
    | some (ni, _) => some ⟨ni, 0, st.rb, st.out⟩
  else if st.drift < -delay_size then
    match reset_timer isReg st.interval f105 with
    | none => none
    | some (ni, _) => some ⟨ni, 0, st.rb, st.out⟩
  else some st

/-- One full iteration of the `stream_data` loop body (lines 46-72). -/
def steady_step (isReg : Bool) (st : LoopSt) (ev : Ev) : Option LoopSt :=
  match service_signal isReg st ev.sig with
  | none => none
  | some st1 => check_thresholds isReg (push_input st1 ev.c)

/-- The `stream_data` loop run over a list of iteration observations. -/
def runSteady (isReg : Bool) (st : LoopSt) (evs : List Ev) : Option LoopSt :=
  match evs with
  | [] => some st
  | ev :: rest =>
      match steady_step isReg st ev with
      | none => none
      | some st' => runSteady isReg st' rest

/-- `stream_data` (src/stream-buffer.c:39-79): arm the recurring timer,
run the steady loop, then drain: the final `while( pause() ... )` loop
pops and emits one byte per remaining tick until the queue reports EMPTY,
so the drain phase emits exactly the bytes still queued, in order.
Result: the full byte sequence written to stdout, or `none` if a rescale
bound was violated (`exit(1)`). -/
def stream_data (isReg : Bool) (interval : ℤ) (rb : List ℕ) (evs : List Ev) :
    Option (List ℕ) :=
  match runSteady isReg ⟨interval, 0, rb, []⟩ evs with
  | none => none
  | some st => some (st.out ++ st.rb)

/-! ### Rate estimation `estimate_input_rate` -/

/-- What the estimation phase observed: `first` is the untimed initial
`getchar()` (line 169), `bytes` are the bytes read by the loop on lines
174-177 (each one pushed and counted), and `sig` is whether `SIGALRM`
fired (ending the loop via an interrupted read and setting
`received_signal`). -/
structure EstIn where
  first : Option ℕ
  bytes : List ℕ
  sig : Bool
deriving DecidableEq

/-- The queue contents after the estimation phase: the initial byte (when
present) followed by the bytes read during the window. -/
def est_buffered (inp : EstIn) : List ℕ :=
  (match inp.first with
   | some c => [c]
   | none => []) ++ inp.bytes

/-- Outcome of `estimate_input_rate`: fatal `exit(1)` with a diagnostic,
or an interval plus the buffered bytes. -/
inductive EstResult where
  | fatal (msg : String)
  | ok (interval : ℤ) (rb : List ℕ)
deriving DecidableEq

/-- `estimate_input_rate` (src/stream-buffer.c:161-189).  The first
component is the window armed by `set_timer(999999, 0)` on line 172; the
second is the outcome.  `1e6 / bytes_read` is a C `double` division whose
truncation to `long long` equals `⌊1000000 / bytes_read⌋` for every
`bytes_read` in the accepted range `[1, 999999]` (the quotient is at least
`1.000001` and the relative rounding error of the division is below
`2^-52`, too small to cross an integer), so natural floor division models
it exactly. -/
def estimate_input_rate (inp : EstIn) : TimerCfg × EstResult :=
  (set_timer 999999 0,
   if ¬ inp.sig ∨ inp.bytes.length < 1 then
     .fatal "not enough input to estimate data rate"
   else if inp.bytes.length > 999999 then
     .fatal "input data rate is too high"
   else
     .ok ((1000000 / inp.bytes.length : ℕ) : ℤ) (est_buffered inp))

/-! ### Argument handling and `main` -/

/-- The numeric value of a list of decimal digit characters. -/
def digitsVal (ds : List Char) : ℕ :=
  ds.foldl (fun a c => a * 10 + (c.toNat - 48)) 0

/-- Model of the C library `strtoll(arg, &end, 0)` on plain decimal
arguments (an optional minus sign followed by decimal digits; the hex and
octal prefixes of base 0 and leading whitespace are outside the modelled
inputs): returns the parsed value and the unconsumed rest (`*end`). -/
def strtoll (s : List Char) : ℤ × List Char :=
  match s with
  | '-' :: rest =>
      if (rest.takeWhile Char.isDigit) = [] then (0, s)
      else (-(digitsVal (rest.takeWhile Char.isDigit) : ℤ),
            rest.dropWhile Char.isDigit)
  | _ =>
      if (s.takeWhile Char.isDigit) = [] then (0, s)
      else ((digitsVal (s.takeWhile Char.isDigit) : ℤ),
            s.dropWhile Char.isDigit)

/-- `parse_argument_for_interval` (src/stream-buffer.c:146-159): parse the
argument; when `rv < 0 || rv > 999999 || *end` print "Invalid argument."
followed by the three usage lines (the Boolean records whether that
diagnostic was printed) and in every case return `rv` unchanged. -/
def parse_argument_for_interval (arg : List Char) : ℤ × Bool :=
  let rv := (strtoll arg).1
  if rv < 0 ∨ rv > 999999 ∨ (strtoll arg).2 ≠ [] then (rv, true)
  else (rv, false)

/-- The interval `main` (src/stream-buffer.c:209-228) hands to
`stream_data`: with an argument, whatever `parse_argument_for_interval`
returned (no further check); with no argument and a regular stdin, fatal
(`none`); otherwise the result of `estimate_input_rate`, used as-is with
no range check. -/
def main_interval (arg : Option (List Char)) (isReg : Bool) (est : EstIn) :
    Option ℤ :=
  match arg with
  | some a => some (parse_argument_for_interval a).1
  | none =>
      if isReg then none
      else
        match (estimate_input_rate est).2 with
        | .fatal _ => none
        | .ok i _ => some i

/-! ### Helper lemmas -/

lemma reset_timer_reg (interval : ℤ) (f : Dy) :
    reset_timer true interval f = some (interval, none) := rfl

lemma reset_timer_some {interval : ℤ} {f : Dy} {r : ℤ} {cfg : Option TimerCfg}
    (h : reset_timer false interval f = some (r, cfg)) :
    r = rescaled interval f ∧ 10 ≤ r ∧ r ≤ 1000000 := by
  unfold reset_timer at h
  simp only [Bool.false_eq_true, if_false] at h
  split_ifs at h with h1 h2
  cases h
  exact ⟨rfl, by omega, by omega⟩

lemma service_signal_reg_interval {st st' : LoopSt} {sig : Bool}
    (h : service_signal true st sig = some st') : st'.interval = st.interval := by
  unfold service_signal at h
  split_ifs at h with hsig
  · cases hrb : st.rb with
    | nil => rw [hrb] at h; simp only [rb_pop, reset_timer_reg] at h; cases h; rfl
    | cons d rest => rw [hrb] at h; simp only [rb_pop] at h; cases h; rfl
  · cases h; rfl

lemma push_input_interval (st : LoopSt) (c : Option ℕ) :
    (push_input st c).interval = st.interval := by
  cases c <;> rfl

lemma check_thresholds_reg_interval {st st' : LoopSt}
    (h : check_thresholds true st = some st') : st'.interval = st.interval := by
  unfold check_thresholds at h
  split_ifs at h <;> (try simp only [reset_timer_reg] at h) <;>
    (cases h; rfl)

lemma steady_step_reg_interval {st st' : LoopSt} {ev : Ev}
    (h : steady_step true st ev = some st') : st'.interval = st.interval := by
  unfold steady_step at h
  cases hs : service_signal true st ev.sig with
  | none => rw [hs] at h; cases h
  | some st1 =>
      rw [hs] at h
      rw [check_thresholds_reg_interval h, push_input_interval,
        service_signal_reg_interval hs]

lemma runSteady_reg_interval {evs : List Ev} :
    ∀ {st st' : LoopSt}, runSteady true st evs = some st' →
      st'.interval = st.interval := by
  induction evs with
  | nil => intro st st' h; cases h; rfl
  | cons ev rest ih =>
      intro st st' h
      unfold runSteady at h
      cases hs : steady_step true st ev with
      | none => rw [hs] at h; cases h
      | some st1 =>
          rw [hs] at h
          rw [ih h, steady_step_reg_interval hs]

/-! ### Claims C2, C3, C6, C9 -/

/-- C2, counterexample: at current interval 952381 on a live source, the
computed new interval is 1000000, which exceeds 999999, yet `reset_timer`
does not terminate the process: it returns 1000000 (its fatal check is
`> 1e6`, not `> 999999`), so the returned interval escapes [10, 999999]. -/
theorem c2_counterexample :
    rescaled 952381 f105 = 1000000
    ∧ reset_timer false 952381 f105 = some (1000000, some ⟨1000000, 1000000⟩)
    ∧ ¬ (1000000 : ℤ) ≤ 999999 := by decide

/-- C2, amended: for every rescale on a live source, if the computed new
interval is below 10 the process terminates with a non-zero status, if it
is above 1_000_000 it terminates with a non-zero status, and otherwise the
returned interval lies within [10, 1_000_000] inclusive. -/
theorem c2_amended (interval : ℤ) (f : Dy) :
    (rescaled interval f < 10 → reset_timer false interval f = none)
    ∧ (rescaled interval f > 1000000 → reset_timer false interval f = none)
    ∧ ∀ r cfg, reset_timer false interval f = some (r, cfg) →
        10 ≤ r ∧ r ≤ 1000000 := by
  refine ⟨fun h1 => ?_, fun h2 => ?_, fun r cfg h => (reset_timer_some h).2⟩
  · unfold reset_timer
    simp only [Bool.false_eq_true, if_false]
    rw [if_pos h1]
  · unfold reset_timer
    simp only [Bool.false_eq_true, if_false]
    rw [if_neg (by omega), if_pos h2]

/-- C2 amended, witness: rescaling interval 100 by 1.05 on a live source
returns 104, which lies within [10, 1_000_000]. -/
theorem c2_amended_witness :
    reset_timer false 100 f105 = some (104, some ⟨104, 104⟩)
    ∧ 10 ≤ (104 : ℤ) ∧ (104 : ℤ) ≤ 1000000 :=
  ⟨by decide, (c2_amended 100 f105).2.2 104 (some ⟨104, 104⟩) (by decide)⟩

/-- C3: on a seekable/regular source, `reset_timer` returns the interval
unchanged with any factor and does not re-arm the timer, and every steady
run keeps exactly the originally supplied interval. -/
theorem c3_regular_source_immunity :
    (∀ (interval : ℤ) (f : Dy),
        reset_timer true interval f = some (interval, none))
    ∧ ∀ (st st' : LoopSt) (evs : List Ev),
        runSteady true st evs = some st' → st'.interval = st.interval :=
  ⟨reset_timer_reg, fun _ _ _ h => runSteady_reg_interval h⟩

/-- C3, witness: a concrete regular-source run (one byte in, one tick)
ends with the originally supplied interval 50. -/
theorem c3_regular_source_immunity_witness :
    runSteady true ⟨50, 0, [], []⟩ [⟨some 3, false⟩, ⟨none, true⟩]
      = some ⟨50, 0, [], [3]⟩
    ∧ (⟨50, 0, ([] : List ℕ), [3]⟩ : LoopSt).interval
        = (⟨50, 0, ([] : List ℕ), ([] : List ℕ)⟩ : LoopSt).interval :=
  ⟨by decide,
   c3_regular_source_immunity.2 ⟨50, 0, [], []⟩ ⟨50, 0, [], [3]⟩
     [⟨some 3, false⟩, ⟨none, true⟩] (by decide)⟩

/-- C6, counterexample: the estimation window is armed by
`set_timer(999999, 0)`: a one-shot value of 999_999 microseconds, not the
claimed 1_000_000. -/
theorem c6_counterexample :
    (estimate_input_rate ⟨none, [], false⟩).1 = ⟨999999, 0⟩
    ∧ (999999 : ℤ) ≠ 1000000 := by decide

/-- C6, amended: when rate estimation runs, after the one untimed initial
byte the estimator arms a one-shot timer window of exactly 999_999
microseconds with no recurring period. -/
theorem c6_amended (inp : EstIn) :
    (estimate_input_rate inp).1 = set_timer 999999 0 := rfl

/-- C9 (code bug): the argument "0" parses to 0, which is outside
(0, 999999], yet `parse_argument_for_interval` prints no usage diagnostic
(its check is `rv < 0`, excluding only negatives) and returns 0 — which
the program's own usage text ("must be an integer greater than 0") and the
downstream `assert(interval > 0)` in `read_one_second` both forbid. -/
theorem c9_code_bug :
    parse_argument_for_interval ['0'] = (0, false)
    ∧ ¬ (0 : ℤ) > 0 := by decide

lemma estimate_ok (inp : EstIn) (hs : inp.sig = true)
    (h1 : 1 ≤ inp.bytes.length) (h2 : inp.bytes.length ≤ 999999) :
    (estimate_input_rate inp).2
      = .ok ((1000000 / inp.bytes.length : ℕ) : ℤ) (est_buffered inp) := by
  unfold estimate_input_rate
  have hc : ¬ (¬ inp.sig = true ∨ inp.bytes.length < 1) := by
    intro h
    rcases h with h | h
    · exact h hs
    · omega
  have hc2 : ¬ inp.bytes.length > 999999 := by omega
  rw [if_neg hc, if_neg hc2]

lemma estimate_not_enough (inp : EstIn)
    (h : inp.sig = false ∨ inp.bytes.length < 1) :
    (estimate_input_rate inp).2
      = .fatal "not enough input to estimate data rate" := by
  unfold estimate_input_rate
  have hc : ¬ inp.sig = true ∨ inp.bytes.length < 1 := by
    rcases h with h | h
    · left; rw [h]; exact Bool.false_ne_true
    · right; exact h
  rw [if_pos hc]

/-! ### Claims C4, C5, C10 -/

/-- C4: whenever estimation succeeds with `bytes_read` bytes
(1 ≤ bytes_read ≤ 999_999) read during the window, the returned initial
interval is ⌊1_000_000 / bytes_read⌋ (the buffered bytes ride along). -/
theorem c4_estimation (inp : EstIn) (hs : inp.sig = true)
    (h1 : 1 ≤ inp.bytes.length) (h2 : inp.bytes.length ≤ 999999) :
    (estimate_input_rate inp).2
      = .ok ((1000000 / inp.bytes.length : ℕ) : ℤ) (est_buffered inp) :=
  estimate_ok inp hs h1 h2

/-- C4, witness: exactly 500_000 bytes read in the window yield an
interval of 2 microseconds per byte. -/
theorem c4_estimation_witness :
    (estimate_input_rate ⟨some 7, List.replicate 500000 3, true⟩).2
      = .ok 2 (7 :: List.replicate 500000 3) := by
  have h := c4_estimation ⟨some 7, List.replicate 500000 3, true⟩ rfl
    (by rw [List.length_replicate]; norm_num)
    (by rw [List.length_replicate]; norm_num)
  dsimp only at h
  rw [List.length_replicate] at h
  have hval : ((1000000 / 500000 : ℕ) : ℤ) = 2 := by norm_num
  rw [hval] at h
  simpa only [est_buffered, List.singleton_append] using h

/-- C5, counterexample: with 1_000_000 bytes read but a window that never
expired, the code fails with "not enough input to estimate data rate" —
not with "input data rate is too high" as the claim's "exactly when more
than 999,999 bytes were read" requires. -/
theorem c5_counterexample :
    (estimate_input_rate ⟨none, List.replicate 1000000 0, false⟩).2
      = .fatal "not enough input to estimate data rate"
    ∧ 999999 < (List.replicate 1000000 (0 : ℕ)).length
    ∧ EstResult.fatal "not enough input to estimate data rate"
      ≠ EstResult.fatal "input data rate is too high" := by
  refine ⟨estimate_not_enough _ (Or.inl rfl), ?_, by decide⟩
  rw [List.length_replicate]
  norm_num

/-- C5, amended: estimation fails with "not enough input to estimate data
rate" exactly when the window never expired or fewer than 1 byte was read;
it fails with "input data rate is too high" exactly when the window
expired, at least 1 byte was read, and more than 999_999 bytes were read
(the not-enough check has priority); in all other cases it returns an
interval without terminating. -/
theorem c5_amended (inp : EstIn) :
    ((estimate_input_rate inp).2
        = .fatal "not enough input to estimate data rate"
      ↔ (inp.sig = false ∨ inp.bytes.length < 1))
    ∧ ((estimate_input_rate inp).2 = .fatal "input data rate is too high"
      ↔ (inp.sig = true ∧ 1 ≤ inp.bytes.length
          ∧ 999999 < inp.bytes.length))
    ∧ (inp.sig = true → 1 ≤ inp.bytes.length → inp.bytes.length ≤ 999999 →
        (estimate_input_rate inp).2
          = .ok ((1000000 / inp.bytes.length : ℕ) : ℤ) (est_buffered inp)) := by
  refine ⟨?_, ?_, estimate_ok inp⟩ <;>
    unfold estimate_input_rate <;>
    cases hs : inp.sig <;>
    split_ifs with hc <;>
    simp_all <;>
    omega

/-- C5 amended, witness: a run whose window expired after 4 bytes returns
the interval 250_000 without terminating. -/
theorem c5_amended_witness :
    (estimate_input_rate ⟨some 7, [1, 2, 3, 4], true⟩).2
      = .ok ((1000000 / ([1, 2, 3, 4] : List ℕ).length : ℕ) : ℤ)
          (est_buffered ⟨some 7, [1, 2, 3, 4], true⟩) :=
  (c5_amended ⟨some 7, [1, 2, 3, 4], true⟩).2.2 rfl (by decide) (by decide)

/-- C10: the interval produced by rate estimation flows into the run with
no range check: for every window with `bytes_read` in [1, 999_999], `main`
starts streaming with exactly ⌊1_000_000 / bytes_read⌋, which always lies
in [1, 1_000_000] and in particular is 2 (< 10, outside the
EmissionInterval range) for 500_000 bytes, with no fatal termination. -/
theorem c10_unchecked :
    (∀ inp : EstIn, inp.sig = true → 1 ≤ inp.bytes.length →
        inp.bytes.length ≤ 999999 →
        main_interval none false inp
            = some ((1000000 / inp.bytes.length : ℕ) : ℤ)
          ∧ 1 ≤ ((1000000 / inp.bytes.length : ℕ) : ℤ)
          ∧ ((1000000 / inp.bytes.length : ℕ) : ℤ) ≤ 1000000)
    ∧ main_interval none false ⟨some 0, List.replicate 500000 0, true⟩
        = some 2
    ∧ (2 : ℤ) < 10 := by
  have key : ∀ inp : EstIn, inp.sig = true → 1 ≤ inp.bytes.length →
      inp.bytes.length ≤ 999999 →
      main_interval none false inp
        = some ((1000000 / inp.bytes.length : ℕ) : ℤ) := by
    intro inp hs h1 h2
    unfold main_interval
    rw [estimate_ok inp hs h1 h2]
    rfl
  refine ⟨fun inp hs h1 h2 => ⟨key inp hs h1 h2, ?_, ?_⟩, ?_, by norm_num⟩
  · have : 1 ≤ 1000000 / inp.bytes.length :=
      (Nat.one_le_div_iff (by omega)).mpr (by omega)
    exact_mod_cast this
  · have : 1000000 / inp.bytes.length ≤ 1000000 := Nat.div_le_self _ _
    exact_mod_cast this
  · have h := key ⟨some 0, List.replicate 500000 0, true⟩ rfl
      (by rw [List.length_replicate]; norm_num)
      (by rw [List.length_replicate]; norm_num)
    dsimp only at h
    rw [List.length_replicate] at h
    have hval : ((1000000 / 500000 : ℕ) : ℤ) = 2 := by norm_num
    rw [hval] at h
    exact h

/-- C10, witness: a window with a single byte starts the run at interval
1_000_000 with no range check applied. -/
theorem c10_unchecked_witness :
    main_interval none false ⟨none, [0], true⟩
      = some ((1000000 / ([0] : List ℕ).length : ℕ) : ℤ)
    ∧ 1 ≤ ((1000000 / ([0] : List ℕ).length : ℕ) : ℤ)
    ∧ ((1000000 / ([0] : List ℕ).length : ℕ) : ℤ) ≤ 1000000 :=
  c10_unchecked.1 ⟨none, [0], true⟩ rfl (by decide) (by decide)

/-! ### Claim C8 -/

/-- C8, counterexample: an underrun tick at interval 100 with drift 5
rescales the interval (100 becomes 104) but leaves the drift counter at 4,
not 0 — the underrun rescale does not reset the drift counter. -/
theorem c8_counterexample :
    steady_step false ⟨100, 5, [], []⟩ ⟨none, true⟩ = some ⟨104, 4, [], []⟩
    ∧ reset_timer false 100 f105 = some (104, some ⟨104, 104⟩)
    ∧ (104 : ℤ) ≠ 100
    ∧ (4 : ℤ) ≠ 0 := by decide

/-- C8, amended: the drift counter is reset to zero after the two
threshold-triggered rescales — both when a byte arrival pushes it past
+1024 and when an emitting tick pushes it past −1024 — but the rescale
triggered by an underrun tick leaves the counter at its decremented value
(old drift − 1) whenever that value stays within the ±1024 thresholds. -/
theorem c8_amended (isReg : Bool) (st st' : LoopSt) (b d : ℕ)
    (rest : List ℕ) :
    (st.rb = [] → -1024 ≤ st.drift - 1 → st.drift - 1 ≤ 1024 →
        steady_step isReg st ⟨none, true⟩ = some st' →
        st'.drift = st.drift - 1
        ∧ ∃ cfg, reset_timer isReg st.interval f105 = some (st'.interval, cfg))
    ∧ (delay_size < st.drift + 1 →
        steady_step isReg st ⟨some b, false⟩ = some st' →
        st'.drift = 0
        ∧ ∃ cfg, reset_timer isReg st.interval f095
            = some (st'.interval, cfg))
    ∧ (st.rb = d :: rest → st.drift - 1 < -delay_size →
        steady_step isReg st ⟨none, true⟩ = some st' →
        st'.drift = 0
        ∧ ∃ cfg, reset_timer isReg st.interval f105
            = some (st'.interval, cfg)) := by
  refine ⟨?_, ?_, ?_⟩
  · intro hrb hlo hhi hstep
    have hc1 : ¬ st.drift - 1 > 1024 := by omega
    have hc2 : ¬ st.drift - 1 < -1024 := by omega
    cases hr : reset_timer isReg st.interval f105 with
    | none =>
        unfold steady_step service_signal at hstep
        rw [hrb] at hstep
        simp only [rb_pop, hr] at hstep
        rw [if_pos trivial] at hstep
        cases hstep
    | some p =>
        obtain ⟨ni, cfg⟩ := p
        unfold steady_step service_signal at hstep
        rw [hrb] at hstep
        simp only [rb_pop, hr, push_input, check_thresholds, delay_size]
          at hstep
        rw [if_pos trivial] at hstep
        dsimp only at hstep
        rw [if_neg hc1, if_neg hc2] at hstep
        cases hstep
        exact ⟨rfl, cfg, rfl⟩
  · intro hth hstep
    have hcc : st.drift + 1 > 1024 := by
      simp only [delay_size] at hth
      omega
    cases hr : reset_timer isReg st.interval f095 with
    | none =>
        unfold steady_step service_signal at hstep
        simp only [Bool.false_eq_true, if_false, push_input,
          check_thresholds, delay_size, rb_xpush, hr] at hstep
        try dsimp only at hstep
        rw [if_pos hcc] at hstep
        cases hstep
    | some p =>
        obtain ⟨ni, cfg⟩ := p
        unfold steady_step service_signal at hstep
        simp only [Bool.false_eq_true, if_false, push_input,
          check_thresholds, delay_size, rb_xpush, hr] at hstep
        try dsimp only at hstep
        rw [if_pos hcc] at hstep
        cases hstep
        exact ⟨rfl, cfg, rfl⟩
  · intro hrb hlo hstep
    have hc1 : ¬ st.drift - 1 > 1024 := by
      simp only [delay_size] at hlo
      omega
    have hc2 : st.drift - 1 < -1024 := by
      simp only [delay_size] at hlo
      omega
    cases hr : reset_timer isReg st.interval f105 with
    | none =>
        unfold steady_step service_signal at hstep
        rw [hrb] at hstep
        simp only [rb_pop, hr, push_input, check_thresholds, delay_size]
          at hstep
        rw [if_pos trivial] at hstep
        try dsimp only at hstep
        rw [if_neg hc1, if_pos hc2] at hstep
        rw [hr] at hstep
        cases hstep
    | some p =>
        obtain ⟨ni, cfg⟩ := p
        unfold steady_step service_signal at hstep
        rw [hrb] at hstep
        simp only [rb_pop, hr, push_input, check_thresholds, delay_size]
          at hstep
        rw [if_pos trivial] at hstep
        try dsimp only at hstep
        rw [if_neg hc1, if_pos hc2] at hstep
        rw [hr] at hstep
        cases hstep
        exact ⟨rfl, cfg, rfl⟩

/-- C8 amended, witness: the amended statement at the counterexample state
(underrun tick at drift 5: drift becomes 5 − 1, interval rescales 100→104)
and at a −1024 crossing (emitting tick at drift −1030: drift resets to 0,
interval rescales 100→104). -/
theorem c8_amended_witness :
    ((4 : ℤ) = 5 - 1
      ∧ ∃ cfg, reset_timer false 100 f105 = some (104, cfg))
    ∧ ((0 : ℤ) = 0
      ∧ ∃ cfg, reset_timer false 100 f105 = some (104, cfg)) := by
  constructor
  · exact (c8_amended false ⟨100, 5, [], []⟩ ⟨104, 4, [], []⟩ 0 0 []).1 rfl
      (by decide) (by decide) (by decide)
  · exact (c8_amended false ⟨100, -1030, [9], []⟩ ⟨104, 0, [], [9]⟩ 0 9
      []).2.2 rfl (by decide) (by decide)

/-! ### Claim C1 -/

lemma service_signal_out_rb {isReg : Bool} {st st' : LoopSt} {sig : Bool}
    (h : service_signal isReg st sig = some st') :
    st'.out ++ st'.rb = st.out ++ st.rb := by
  unfold service_signal at h
  split_ifs at h with hsig
  · cases hrb : st.rb with
    | nil =>
        rw [hrb] at h
        simp only [rb_pop] at h
        cases hr : reset_timer isReg st.interval f105 with
        | none => rw [hr] at h; cases h
        | some p =>
            obtain ⟨ni, cfg⟩ := p
            rw [hr] at h
            cases h
            simp [hrb]
    | cons d rest =>
        rw [hrb] at h
        simp only [rb_pop] at h
        cases h
        simp [hrb]
  · cases h; rfl

lemma push_input_out_rb (st : LoopSt) (c : Option ℕ) :
    (push_input st c).out ++ (push_input st c).rb
      = st.out ++ st.rb ++ c.toList := by
  cases c <;> simp [push_input, rb_xpush]

lemma check_thresholds_out_rb {isReg : Bool} {st st' : LoopSt}
    (h : check_thresholds isReg st = some st') :
    st'.out = st.out ∧ st'.rb = st.rb := by
  unfold check_thresholds at h
  split_ifs at h
  · cases hr : reset_timer isReg st.interval f095 with
    | none => rw [hr] at h; cases h
    | some p => obtain ⟨ni, cfg⟩ := p; rw [hr] at h; cases h; exact ⟨rfl, rfl⟩
  · cases hr : reset_timer isReg st.interval f105 with
    | none => rw [hr] at h; cases h
    | some p => obtain ⟨ni, cfg⟩ := p; rw [hr] at h; cases h; exact ⟨rfl, rfl⟩
  · cases h; exact ⟨rfl, rfl⟩

lemma steady_step_out_rb {isReg : Bool} {st st' : LoopSt} {ev : Ev}
    (h : steady_step isReg st ev = some st') :
    st'.out ++ st'.rb = st.out ++ st.rb ++ ev.c.toList := by
  unfold steady_step at h
  cases hs : service_signal isReg st ev.sig with
  | none => rw [hs] at h; cases h
  | some st1 =>
      rw [hs] at h
      obtain ⟨ho, hr⟩ := check_thresholds_out_rb h
      rw [ho, hr, push_input_out_rb, service_signal_out_rb hs]

lemma runSteady_out_rb {isReg : Bool} {evs : List Ev} :
    ∀ {st st' : LoopSt}, runSteady isReg st evs = some st' →
      st'.out ++ st'.rb = st.out ++ st.rb ++ inputBytes evs := by
  induction evs with
  | nil => intro st st' h; cases h; simp [inputBytes]
  | cons ev rest ih =>
      intro st st' h
      unfold runSteady at h
      cases hs : steady_step isReg st ev with
      | none => rw [hs] at h; cases h
      | some st1 =>
          rw [hs] at h
          rw [ih h, steady_step_out_rb hs]
          simp [inputBytes, List.filterMap_cons]
          cases ev.c <;> simp [Option.toList]

/-- C1: order preservation across the prefill/estimation, steady, and
drain phases.  `input.take k` is whatever the prefill or estimation phase
buffered before `stream_data` starts; the steady loop receives the rest of
the input interleaved with ticks.  Every run that completes (no fatal
rescale) writes exactly the input sequence to stdout: same bytes, same
order, none dropped, duplicated, or reordered. -/
theorem c1_order_preservation (isReg : Bool) (interval : ℤ) (input : List ℕ)
    (k : ℕ) (evs : List Ev) (out : List ℕ)
    (hevs : inputBytes evs = input.drop k)
    (hrun : stream_data isReg interval (input.take k) evs = some out) :
    out = input := by
  unfold stream_data at hrun
  cases hr : runSteady isReg ⟨interval, 0, input.take k, []⟩ evs with
  | none => rw [hr] at hrun; cases hrun
  | some st =>
      rw [hr] at hrun
      cases hrun
      have h2 := runSteady_out_rb hr
      simp only [List.nil_append] at h2
      rw [h2, hevs, List.take_append_drop]

/-- C1, witness: a concrete run — one byte prefilled, two read during the
steady phase, two ticks — emits exactly the input `[65, 66, 67]`. -/
theorem c1_order_preservation_witness :
    inputBytes [⟨some 66, false⟩, ⟨some 67, true⟩, ⟨none, true⟩]
        = [65, 66, 67].drop 1
    ∧ stream_data false 100 ([65, 66, 67].take 1)
        [⟨some 66, false⟩, ⟨some 67, true⟩, ⟨none, true⟩]
        = some [65, 66, 67]
    ∧ ([65, 66, 67] : List ℕ) = [65, 66, 67] :=
  ⟨by decide, by decide,
   c1_order_preservation false 100 [65, 66, 67] 1
     [⟨some 66, false⟩, ⟨some 67, true⟩, ⟨none, true⟩] [65, 66, 67]
     (by decide) (by decide)⟩

/-! ### Claim C7: exactness and error bounds of the binary32 model -/

lemma ilog2Aux_spec : ∀ (fuel n : ℕ), 1 ≤ n → n < 2 ^ fuel →
    2 ^ ilog2Aux fuel n ≤ n ∧ n < 2 ^ (ilog2Aux fuel n + 1) := by
  intro fuel
  induction fuel with
  | zero =>
      intro n h1 h2
      simp only [pow_zero] at h2
      omega
  | succ f ih =>
      intro n h1 h2
      unfold ilog2Aux
      split_ifs with h
      · constructor
        · simpa using h1
        · simpa using h
      · have hpow : 2 ^ (f + 1) = 2 * 2 ^ f := by ring
        have hn2 : 1 ≤ n / 2 := by omega
        have hn2' : n / 2 < 2 ^ f := by omega
        obtain ⟨l, u⟩ := ih (n / 2) hn2 hn2'
        have e1 : 2 ^ (ilog2Aux f (n / 2) + 1) = 2 * 2 ^ ilog2Aux f (n / 2) := by
          ring
        have e2 : 2 ^ (ilog2Aux f (n / 2) + 1 + 1)
            = 2 * 2 ^ (ilog2Aux f (n / 2) + 1) := by ring
        constructor <;> omega

lemma ilog2_spec (n : ℕ) (h1 : 1 ≤ n) (h2 : n < 2 ^ 32) :
    2 ^ ilog2 n ≤ n ∧ n < 2 ^ (ilog2 n + 1) :=
  ilog2Aux_spec 32 n h1 h2

lemma rndePow_err (a : ℤ) (t : ℕ) :
    |(rndePow a t : ℚ) - (a : ℚ) / 2 ^ t| ≤ 1 / 2 := by
  have hd : (0 : ℤ) < 2 ^ t := by positivity
  have hdq : (0 : ℚ) < (2 : ℚ) ^ t := by positivity
  have hmod : 0 ≤ a % 2 ^ t := Int.emod_nonneg a (by positivity)
  have hmod2 : a % 2 ^ t < 2 ^ t := Int.emod_lt_of_pos a hd
  have hdiv : 2 ^ t * (a / 2 ^ t) + a % 2 ^ t = a := Int.ediv_add_emod a (2 ^ t)
  have hval : (a : ℚ) / 2 ^ t
      = ((a / 2 ^ t : ℤ) : ℚ) + ((a % 2 ^ t : ℤ) : ℚ) / (2 : ℚ) ^ t := by
    have hdivQ : (2 : ℚ) ^ t * ((a / 2 ^ t : ℤ) : ℚ) + ((a % 2 ^ t : ℤ) : ℚ)
        = (a : ℚ) := by exact_mod_cast hdiv
    field_simp
    linarith
  have hr0 : (0 : ℚ) ≤ ((a % 2 ^ t : ℤ) : ℚ) / (2 : ℚ) ^ t := by
    apply div_nonneg _ (le_of_lt hdq)
    exact_mod_cast hmod
  have hr1 : ((a % 2 ^ t : ℤ) : ℚ) / (2 : ℚ) ^ t ≤ 1 := by
    rw [div_le_one hdq]
    exact_mod_cast le_of_lt hmod2
  unfold rndePow
  split_ifs with h1 h2 h3
  · have hru : ((a % 2 ^ t : ℤ) : ℚ) / (2 : ℚ) ^ t ≤ 1 / 2 := by
      rw [div_le_div_iff hdq (by norm_num)]
      have : ((2 * (a % 2 ^ t) : ℤ) : ℚ) ≤ ((2 ^ t : ℤ) : ℚ) := by
        exact_mod_cast h1.le
      push_cast at this ⊢
      linarith
    rw [hval, abs_le]
    constructor <;> push_cast <;> linarith
  · have hrl : 1 / 2 ≤ ((a % 2 ^ t : ℤ) : ℚ) / (2 : ℚ) ^ t := by
      rw [div_le_div_iff (by norm_num) hdq]
      have : ((2 ^ t : ℤ) : ℚ) ≤ ((2 * (a % 2 ^ t) : ℤ) : ℚ) := by
        exact_mod_cast h2.le
      push_cast at this ⊢
      linarith
    rw [hval, abs_le]
    constructor <;> push_cast <;> linarith
  · have he : 2 * (a % 2 ^ t) = 2 ^ t := by omega
    have hrh : ((a % 2 ^ t : ℤ) : ℚ) / (2 : ℚ) ^ t = 1 / 2 := by
      rw [div_eq_div_iff (ne_of_gt hdq) (by norm_num)]
      have : ((2 * (a % 2 ^ t) : ℤ) : ℚ) = ((2 ^ t : ℤ) : ℚ) := by
        exact_mod_cast he
      push_cast at this ⊢
      linarith
    rw [hval, abs_le]
    constructor <;> push_cast <;> linarith
  · have he : 2 * (a % 2 ^ t) = 2 ^ t := by omega
    have hrh : ((a % 2 ^ t : ℤ) : ℚ) / (2 : ℚ) ^ t = 1 / 2 := by
      rw [div_eq_div_iff (ne_of_gt hdq) (by norm_num)]
      have : ((2 * (a % 2 ^ t) : ℤ) : ℚ) = ((2 ^ t : ℤ) : ℚ) := by
        exact_mod_cast he
      push_cast at this ⊢
      linarith
    rw [hval, abs_le]
    constructor <;> push_cast <;> linarith

lemma rndePow_dvd (a : ℤ) (t : ℕ) (h : (2 ^ t : ℤ) ∣ a) :
    rndePow a t = a / 2 ^ t := by
  unfold rndePow
  have hr : a % 2 ^ t = 0 := Int.emod_eq_zero_of_dvd h
  have hpos : (0 : ℤ) < 2 ^ t := by positivity
  rw [hr]
  rw [if_pos (by omega)]

lemma int_ediv_pow_eq_floor (n : ℤ) (e : ℕ) :
    n / 2 ^ e = ⌊(n : ℚ) / 2 ^ e⌋ := by
  have hcast : (((2 ^ e : ℕ) : ℚ)) = (2 : ℚ) ^ e := by push_cast; ring
  rw [← hcast, Rat.floor_intCast_div_natCast]
  congr 1
  push_cast
  ring

lemma dyVal_dyMul (a b : Dy) : dyVal (dyMul a b) = dyVal a * dyVal b := by
  unfold dyVal dyMul
  push_cast
  rw [pow_add]
  field_simp

lemma dyVal_nonneg_iff (d : Dy) : 0 ≤ dyVal d ↔ 0 ≤ d.num := by
  unfold dyVal
  rw [le_div_iff (by positivity : (0 : ℚ) < 2 ^ d.exp), zero_mul]
  exact Int.cast_nonneg

lemma dyTrunc_floor (d : Dy) (h : 0 ≤ d.num) : dyTrunc d = ⌊dyVal d⌋ := by
  unfold dyTrunc dyVal
  rw [if_neg (by omega)]
  exact int_ediv_pow_eq_floor d.num d.exp

lemma floatRoundDy_err (d : Dy) (h1 : 1 ≤ dyVal d) (h2 : dyVal d < 2 ^ 32) :
    |dyVal (floatRoundDy d) - dyVal d| ≤ dyVal d / 2 ^ 24 := by
  have hdq : (0 : ℚ) < (2 : ℚ) ^ d.exp := by positivity
  have hguard : ¬ d.num < 2 ^ d.exp := by
    intro hc
    have hlt : dyVal d < 1 := by
      unfold dyVal
      rw [div_lt_one hdq]
      exact_mod_cast hc
    linarith
  have hfl : d.num / 2 ^ d.exp = ⌊dyVal d⌋ := int_ediv_pow_eq_floor d.num d.exp
  have hfq1 : 1 ≤ ⌊dyVal d⌋ := Int.le_floor.mpr (by exact_mod_cast h1)
  have hfq2 : ⌊dyVal d⌋ < 2 ^ 32 := Int.floor_lt.mpr (by exact_mod_cast h2)
  have htn1 : 1 ≤ (⌊dyVal d⌋).toNat := by omega
  have htn2 : (⌊dyVal d⌋).toNat < 2 ^ 32 := by
    have : (2 : ℤ) ^ 32 = ((2 ^ 32 : ℕ) : ℤ) := by norm_num
    omega
  obtain ⟨hel, _⟩ := ilog2_spec (⌊dyVal d⌋).toNat htn1 htn2
  unfold floatRoundDy
  rw [if_neg hguard, hfl]
  set e := ilog2 (⌊dyVal d⌋).toNat with hedef
  have hpe : (2 : ℚ) ^ e ≤ dyVal d := by
    have hc1 : ((2 ^ e : ℕ) : ℤ) ≤ ⌊dyVal d⌋ := by omega
    have hc2 : (((2 ^ e : ℕ) : ℤ) : ℚ) ≤ (⌊dyVal d⌋ : ℚ) := by exact_mod_cast hc1
    have hc3 : (⌊dyVal d⌋ : ℚ) ≤ dyVal d := Int.floor_le _
    calc (2 : ℚ) ^ e = (((2 ^ e : ℕ) : ℤ) : ℚ) := by push_cast; ring
      _ ≤ (⌊dyVal d⌋ : ℚ) := hc2
      _ ≤ dyVal d := hc3
  set m := rndePow (d.num * 2 ^ 23) (d.exp + e) with hmdef
  have herr := rndePow_err (d.num * 2 ^ 23) (d.exp + e)
  have hs : ((d.num * 2 ^ 23 : ℤ) : ℚ) / 2 ^ (d.exp + e)
      = dyVal d * 2 ^ 23 / 2 ^ e := by
    unfold dyVal
    push_cast
    rw [pow_add, div_mul_eq_mul_div, div_div]
    norm_num
  rw [hs] at herr
  have key : dyVal ⟨m * 2 ^ e, 23⟩ - dyVal d
      = ((m : ℚ) - dyVal d * 2 ^ 23 / 2 ^ e) * ((2 : ℚ) ^ e / 2 ^ 23) := by
    have k1 : dyVal ⟨m * 2 ^ e, 23⟩ = (m : ℚ) * 2 ^ e / 2 ^ 23 := by
      unfold dyVal
      push_cast
      ring
    have k2 : dyVal d * 2 ^ 23 / 2 ^ e * ((2 : ℚ) ^ e / 2 ^ 23) = dyVal d := by
      rw [show dyVal d * 2 ^ 23 / 2 ^ e * ((2 : ℚ) ^ e / 2 ^ 23)
            = dyVal d * 2 ^ 23 / 2 ^ 23 * ((2 : ℚ) ^ e / 2 ^ e) from by ring,
        mul_div_cancel_right₀ _ (by positivity : ((2 : ℚ) ^ 23) ≠ 0),
        div_self (by positivity : ((2 : ℚ) ^ e) ≠ 0), mul_one]
    rw [k1, sub_mul, k2]
    ring
  have hy : (0 : ℚ) ≤ (2 : ℚ) ^ e / 2 ^ 23 := by positivity
  calc |dyVal ⟨m * 2 ^ e, 23⟩ - dyVal d|
      = |(m : ℚ) - dyVal d * 2 ^ 23 / 2 ^ e| * ((2 : ℚ) ^ e / 2 ^ 23) := by
        rw [key, abs_mul, abs_of_nonneg hy]
    _ ≤ (1 / 2) * ((2 : ℚ) ^ e / 2 ^ 23) := by
        exact mul_le_mul_of_nonneg_right herr hy
    _ = (2 : ℚ) ^ e / 2 ^ 24 := by
        rw [show (2 : ℚ) ^ 24 = 2 ^ 23 * 2 from by norm_num]
        ring
    _ ≤ dyVal d / 2 ^ 24 := by
        exact (div_le_div_right (by positivity)).mpr hpe

lemma floatRoundDy_int (i : ℤ) (h1 : 1 ≤ i) (h2 : i ≤ 999999) :
    dyVal (floatRoundDy ⟨i, 0⟩) = (i : ℚ) := by
  unfold floatRoundDy
  dsimp only
  rw [if_neg (by simpa using not_lt.mpr h1)]
  have hdiv1 : i / 2 ^ (0 : ℕ) = i := by norm_num
  rw [hdiv1]
  have htn1 : 1 ≤ i.toNat := by omega
  have htn2 : i.toNat < 2 ^ 32 := by
    have : (2 : ℕ) ^ 32 = 4294967296 := by norm_num
    omega
  obtain ⟨hel, _⟩ := ilog2_spec i.toNat htn1 htn2
  set e := ilog2 i.toNat with hedef
  have he20 : e < 20 := by
    by_contra hc
    push_neg at hc
    have hmono : (2 : ℕ) ^ 20 ≤ 2 ^ e := Nat.pow_le_pow_right (by norm_num) hc
    have h20 : (2 : ℕ) ^ 20 = 1048576 := by norm_num
    omega
  have hesplit : (2 : ℤ) ^ (23 - e) * 2 ^ e = 2 ^ 23 := by
    rw [← pow_add]
    congr 1
    omega
  have hdvd : ((2 : ℤ) ^ (0 + e)) ∣ i * 2 ^ 23 := by
    rw [zero_add]
    exact ⟨i * 2 ^ (23 - e), by rw [mul_comm ((2:ℤ)^e), mul_assoc, hesplit]⟩
  rw [rndePow_dvd _ _ hdvd]
  have hq : i * 2 ^ 23 / 2 ^ (0 + e) = i * 2 ^ (23 - e) := by
    rw [zero_add,
      show (i * 2 ^ 23 : ℤ) = i * 2 ^ (23 - e) * 2 ^ e from by
        rw [mul_assoc, hesplit]]
    exact Int.mul_ediv_cancel _ (by positivity)
  rw [hq]
  unfold dyVal
  dsimp only
  push_cast
  have hxx : (2 : ℚ) ^ (23 - e) * 2 ^ e = 2 ^ 23 := by
    rw [← pow_add]
    congr 1
    omega
  rw [mul_assoc, hxx]
  exact mul_div_cancel_right₀ _ (by positivity)

/-- C7, counterexample: a live rescale of interval 13 by factor 1.05
returns 13 (the single-precision product `13 * 1.05f = 13.64999961…` is
truncated toward zero), while `round(13 * 1.05) = round(13.65) = 14`: the
code does not compute `round(current_interval * factor)`. -/
theorem c7_counterexample :
    reset_timer false 13 f105 = some (13, some ⟨13, 13⟩)
    ∧ round ((13 : ℚ) * (21 / 20)) = 14
    ∧ (13 : ℤ) ≠ 14 := by
  refine ⟨by decide, ?_, by decide⟩
  have h1 : (13 : ℚ) * (21 / 20) + 1 / 2 = 283 / 20 := by norm_num
  rw [round_eq, h1]
  rw [Int.floor_eq_iff]
  constructor <;> norm_num

/-- C7, amended: for every live rescale at a current interval in
[10, 999_999] with factor 1.05 (underrun / positive drift overflow) or
0.95 (negative drift overflow), the interval the code computes and arms is
the single-precision product `interval * factor_f` truncated toward zero —
not `round(interval * factor)` — and it always lies within 9/8 of the
exact product `interval * factor`, hence within 1 of its rounding. -/
theorem c7_amended (i v : ℤ) (cfg : Option TimerCfg) (f : Dy) (fe : ℚ)
    (hf : f = f105 ∧ fe = 21 / 20 ∨ f = f095 ∧ fe = 19 / 20)
    (h10 : 10 ≤ i) (h99 : i ≤ 999999)
    (hr : reset_timer false i f = some (v, cfg)) :
    |(v : ℚ) - (i : ℚ) * fe| ≤ 9 / 8 := by
  have hv : v = rescaled i f := (reset_timer_some hr).1
  subst hv
  unfold rescaled
  have hfli : dyVal (floatRoundDy ⟨i, 0⟩) = (i : ℚ) :=
    floatRoundDy_int i (by omega) h99
  have hp : dyVal (dyMul (floatRoundDy ⟨i, 0⟩) f) = (i : ℚ) * dyVal f := by
    rw [dyVal_dyMul, hfli]
  have hfv : -(1 / 20971520) ≤ dyVal f - fe ∧ dyVal f - fe ≤ 1 / 20971520
      ∧ 9 / 10 ≤ dyVal f ∧ dyVal f ≤ 21 / 20 := by
    rcases hf with ⟨hf1, hf2⟩ | ⟨hf1, hf2⟩ <;> subst hf1 <;> subst hf2 <;>
      refine ⟨?_, ?_, ?_, ?_⟩ <;> norm_num [dyVal, f105, f095]
  obtain ⟨hfe1, hfe2, hf9, hf21⟩ := hfv
  have hiq1 : (10 : ℚ) ≤ (i : ℚ) := by exact_mod_cast h10
  have hiq2 : (i : ℚ) ≤ 999999 := by exact_mod_cast h99
  set p := dyVal (dyMul (floatRoundDy ⟨i, 0⟩) f) with hpdef
  have hp1 : 1 ≤ p := by rw [hp]; nlinarith
  have hp2 : p < 2 ^ 32 := by
    rw [hp]
    have : (2 : ℚ) ^ 32 = 4294967296 := by norm_num
    nlinarith
  have herrp := floatRoundDy_err _ hp1 hp2
  obtain ⟨hl, hu⟩ := abs_le.mp herrp
  have hsmall : p / 2 ^ 24 ≤ 1 / 15 := by
    rw [div_le_iff (by positivity)]
    have : (2 : ℚ) ^ 24 = 16777216 := by norm_num
    nlinarith
  set w := dyVal (floatRoundDy (dyMul (floatRoundDy ⟨i, 0⟩) f)) with hwdef
  have hw0 : 0 ≤ w := by
    have hnn : 0 ≤ p / 2 ^ 24 := by positivity
    linarith
  have htr : dyTrunc (floatRoundDy (dyMul (floatRoundDy ⟨i, 0⟩) f)) = ⌊w⌋ :=
    dyTrunc_floor _ ((dyVal_nonneg_iff _).mp hw0)
  rw [htr]
  have hfl1 : (⌊w⌋ : ℚ) ≤ w := Int.floor_le w
  have hfl2 : w - 1 < (⌊w⌋ : ℚ) := Int.sub_one_lt_floor w
  have hpfe1 : p - (i : ℚ) * fe ≤ 1 / 20 := by
    rw [hp]
    have hstep : (i : ℚ) * dyVal f - (i : ℚ) * fe = (i : ℚ) * (dyVal f - fe) := by
      ring
    nlinarith
  have hpfe2 : -(1 / 20) ≤ p - (i : ℚ) * fe := by
    rw [hp]
    nlinarith
  rw [abs_le]
  constructor <;> linarith

/-- C7 amended, witness: the amended bound at interval 13 with factor
1.05: the armed interval 13 lies within 9/8 of 13 · (21/20) = 13.65. -/
theorem c7_amended_witness :
    |((13 : ℤ) : ℚ) - ((13 : ℤ) : ℚ) * (21 / 20)| ≤ 9 / 8 :=
  c7_amended 13 13 (some ⟨13, 13⟩) f105 (21 / 20) (Or.inl ⟨rfl, rfl⟩)
    (by decide) (by decide) (by decide)

end StreamBuffer
